import Mathlib

/-!
Verification of the surface-sampling allocator of `optix_prime_baking`
(`src/bake_sample.cpp`) and of the loader dispatch (`src/loaders/load_scene.cpp`).

The C++ code is shallowly embedded: `float`/`double` arithmetic is modelled
exactly over `ℚ` (for the purely rational parts: the Halton generator, the
Cranley–Patterson offsets and the fractional-part reduction) and over `ℝ`
(wherever a square root appears: areas, normals, barycentric coordinates);
`size_t` counters become `ℕ` (subtraction sites are guarded by the same
preconditions the code asserts).  Buffers written through a running index
become Lean lists built in the same order the code writes them.
-/

namespace OptixBake

/-! ## 3-vectors (the `float3` operations from the optixu math header) -/

structure Vec3 where
  x : ℝ
  y : ℝ
  z : ℝ

instance : Add Vec3 := ⟨fun a b => ⟨a.x + b.x, a.y + b.y, a.z + b.z⟩⟩

instance : Sub Vec3 := ⟨fun a b => ⟨a.x - b.x, a.y - b.y, a.z - b.z⟩⟩

instance : Neg Vec3 := ⟨fun a => ⟨-a.x, -a.y, -a.z⟩⟩

instance : SMul ℝ Vec3 := ⟨fun r a => ⟨r * a.x, r * a.y, r * a.z⟩⟩

@[simp] theorem add_x (a b : Vec3) : (a + b).x = a.x + b.x := rfl

@[simp] theorem add_y (a b : Vec3) : (a + b).y = a.y + b.y := rfl

@[simp] theorem add_z (a b : Vec3) : (a + b).z = a.z + b.z := rfl

@[simp] theorem sub_x (a b : Vec3) : (a - b).x = a.x - b.x := rfl

@[simp] theorem sub_y (a b : Vec3) : (a - b).y = a.y - b.y := rfl

@[simp] theorem sub_z (a b : Vec3) : (a - b).z = a.z - b.z := rfl

@[simp] theorem neg_x (a : Vec3) : (-a).x = -a.x := rfl

@[simp] theorem neg_y (a : Vec3) : (-a).y = -a.y := rfl

@[simp] theorem neg_z (a : Vec3) : (-a).z = -a.z := rfl

@[simp] theorem smul_x (r : ℝ) (a : Vec3) : (r • a).x = r * a.x := rfl

@[simp] theorem smul_y (r : ℝ) (a : Vec3) : (r • a).y = r * a.y := rfl

@[simp] theorem smul_z (r : ℝ) (a : Vec3) : (r • a).z = r * a.z := rfl

/-- The `optix::dot` product. -/
def dot3 (a b : Vec3) : ℝ := a.x * b.x + a.y * b.y + a.z * b.z

/-- The `optix::cross` product. -/
def cross (a b : Vec3) : Vec3 :=
  ⟨a.y * b.z - a.z * b.y, a.z * b.x - a.x * b.z, a.x * b.y - a.y * b.x⟩

/-- The `optix::normalize` operation: scale by the reciprocal square root of the squared norm. -/
noncomputable def normalize (v : Vec3) : Vec3 := (Real.sqrt (dot3 v v))⁻¹ • v

/-! ## The Halton sequence generator (`halton<BASE>`, bake_sample.cpp:37-50)

The C++ loop `while (i > 0) { result += f*(i % BASE); i = i / BASE; f *= invBase; }`
is modelled with an explicit fuel argument; `fuel = index` suffices because for
`BASE ≥ 2` the running `i` strictly decreases every iteration. -/

def haltonGo (base : ℕ) : ℕ → ℕ → ℚ → ℚ → ℚ
  | 0, _, _, result => result
  | fuel + 1, i, f, result =>
    if i = 0 then result
    else haltonGo base fuel (i / base) (f * (1 / base)) (result + f * ((i % base : ℕ) : ℚ))

/-- Function `halton<BASE>(index)`, computed exactly over `ℚ`
(the C++ code computes it in `float`). -/
def halton (base index : ℕ) : ℚ := haltonGo base index index (1 / base) 0

/-- The spec's radix-inversion, written from the spec's words (§4.1):
take the base-`base` digits of `index` (least significant first, as
`Nat.digits` lists them) and reassemble them as a fractional value with the
digit order reversed, so the least significant digit of `index` gets
fractional weight `1/base`. -/
def fracVal (base : ℕ) : List ℕ → ℚ
  | [] => 0
  | d :: ds => ((d : ℚ) + fracVal base ds) / base

/-- Spec-side definition (§4.1): the radix-inverse (digit-reversed) value of
`index` in base `base`. -/
def radixInverse (base index : ℕ) : ℚ := fracVal base (Nat.digits base index)

/-! ## The per-triangle Cranley–Patterson offset

Modelled from the spec: `tea<4>` and `rnd` live in `random.h`, which is not
part of the sources; spec §4.2 specifies the contract `offset(triangle_index)
-> (float,float) in [0,1)^2`, "a keyed hash of the triangle index mixed twice
to produce two pseudo-random scalars in [0,1)". -/

/-- Modelled from the spec: one mixing step of the keyed hash on 32-bit words
(`random.h` is not in `src/`). -/
def lcgMix (n : ℕ) : ℕ := (1664525 * n + 1013904223) % 2 ^ 32

/-- Modelled from the spec: the deterministic per-triangle 2D offset in
`[0,1)^2` (spec §4.2), mixing the triangle index twice. -/
def triOffset (triIdx : ℕ) : ℚ × ℚ :=
  ((lcgMix triIdx : ℚ) / 2 ^ 32, (lcgMix (lcgMix triIdx) : ℚ) / 2 ^ 32)

/-- The reduction `r - (int)r` for the nonnegative values this code applies it to
(offset and Halton value are both nonnegative, so the C cast toward zero
is the floor). -/
def frac (q : ℚ) : ℚ := q - ⌊q⌋

/-! ## Normal reconciliation (`faceforward`, bake_sample.cpp:52-61)

The one-time warning written to `std::cerr` is process I/O and is not part of
the value-level model. -/

/-- Function `faceforward`: keep `normal` if it already points with `geom_normal`,
otherwise return its negation. -/
noncomputable def faceforward (normal geom_normal : Vec3) : Vec3 :=
  if 0 < dot3 normal geom_normal then normal else -normal

/-! ## Data model (`bake::Mesh`, `bake::SampleInfo` from bake_api.h)

Vertex and index buffers are modelled as total functions; the mesh invariant
"all indices are in range" makes the out-of-range values irrelevant. -/

structure Mesh where
  numVertices : ℕ
  numTriangles : ℕ
  vertices : ℕ → Vec3
  triVertexIndices : ℕ → ℕ × ℕ × ℕ
  normals : Option (ℕ → Vec3)
  triNormalIndices : Option (ℕ → ℕ × ℕ × ℕ)

/-- One output sample: the `SampleInfo` record (triangle index, barycentric
coordinates, differential area) together with the three per-sample buffers
(position, shading normal, face normal) written by `sample_triangle`. -/
structure Sample where
  triIdx : ℕ
  bary : ℝ × ℝ × ℝ
  pos : Vec3
  normal : Vec3
  faceNormal : Vec3
  dA : ℝ

/-- Value `r1` of the loop body (bake_sample.cpp:100-101): fractional part of
offset plus Halton base-2 value at `index+1`. -/
def r1At (triIdx k : ℕ) : ℚ := frac ((triOffset triIdx).1 + halton 2 (k + 1))

/-- Value `r2` of the loop body (bake_sample.cpp:102-103): fractional part of
offset plus Halton base-3 value at `index+1`. -/
def r2At (triIdx k : ℕ) : ℚ := frac ((triOffset triIdx).2 + halton 3 (k + 1))

/-- The square-root barycentric mapping (bake_sample.cpp:108-111). -/
noncomputable def mapToBary (r1 r2 : ℝ) : ℝ × ℝ × ℝ :=
  (1 - Real.sqrt r1, r2 * Real.sqrt r1, 1 - (1 - Real.sqrt r1) - r2 * Real.sqrt r1)

/-- The sample that iteration `index = k` of the loop in `sample_triangle`
(bake_sample.cpp:93-117) writes for triangle `triIdx`: `dA` is left 0 here
("dA must be set elsewhere"). -/
noncomputable def sampleAt (m : Mesh) (triIdx k : ℕ) : Sample :=
  let tri := m.triVertexIndices triIdx
  let v0 := m.vertices tri.1
  let v1 := m.vertices tri.2.1
  let v2 := m.vertices tri.2.2
  let face_normal := normalize (cross (v1 - v0) (v2 - v0))
  let n := match m.normals, m.triNormalIndices with
    | some normals, some triNormalIndices =>
      let nindex := triNormalIndices triIdx
      (faceforward (normals nindex.1) face_normal,
       faceforward (normals nindex.2.1) face_normal,
       faceforward (normals nindex.2.2) face_normal)
    | _, _ => (face_normal, face_normal, face_normal)
  let b := mapToBary ((r1At triIdx k : ℚ) : ℝ) ((r2At triIdx k : ℚ) : ℝ)
  { triIdx := triIdx
    bary := b
    pos := b.1 • v0 + b.2.1 • v1 + b.2.2 • v2
    normal := normalize (b.1 • n.1 + b.2.1 • n.2.1 + b.2.2 • n.2.2)
    faceNormal := face_normal
    dA := 0 }

/-- Call of `sample_triangle` for the index range `[b, e)`: the list of samples it
appends to the output buffers, in write order. -/
noncomputable def sample_triangle (m : Mesh) (triIdx b e : ℕ) : List Sample :=
  (List.range' b (e - b)).map (sampleAt m triIdx)

/-- Function `triangle_area` (bake_sample.cpp:121-128). -/
noncomputable def triangle_area (v0 v1 v2 : Vec3) : ℝ :=
  let e0 := v1 - v0
  let e1 := v2 - v0
  let c := cross e0 e1
  0.5 * Real.sqrt (c.x * c.x + c.y * c.y + c.z * c.z)

/-! ## The area-weighted sample allocator (`bake::sample_surface_random`,
bake_sample.cpp:131-217)

The per-triangle extra counts of phases 2 and 3 are computed by recursions
that mirror the two `for` loops (including their early-exit condition
`sample_idx < ao_samples.num_samples`); a triangle the loop never reaches
contributes 0 extra samples, exactly as in the code. -/

/-- Area of triangle `t` of the mesh (bake_sample.cpp:168-174). -/
noncomputable def triAreas (m : Mesh) (t : ℕ) : ℝ :=
  let tri := m.triVertexIndices t
  triangle_area (m.vertices tri.1) (m.vertices tri.2.1) (m.vertices tri.2.2)

/-- Total `mesh_area`: the accumulated sum of triangle areas. -/
noncomputable def meshArea (m : Mesh) : ℝ :=
  ∑ t ∈ Finset.range m.numTriangles, triAreas m t

/-- Value `num_mesh_samples = ao_samples.num_samples - sample_idx` right after
phase 1, where `sample_idx = num_triangles * min_samples_per_triangle`. -/
def numMeshSamples (m : Mesh) (minSpt numSamples : ℕ) : ℕ :=
  numSamples - m.numTriangles * minSpt

/-- The cast `static_cast<size_t>(num_mesh_samples * tri_areas[t] / mesh_area)`
(bake_sample.cpp:179); the operand is nonnegative whenever `mesh_area > 0`,
so the C truncation toward zero is the floor (`toNat` clamps the value the
model gives the division-by-zero case, which in C is NaN and undefined). -/
noncomputable def phase2Alloc (m : Mesh) (minSpt numSamples : ℕ) (t : ℕ) : ℕ :=
  ⌊(numMeshSamples m minSpt numSamples : ℝ) * triAreas m t / meshArea m⌋.toNat

/-- The phase-2 loop (bake_sample.cpp:177-184), recorded as the list of extra
sample counts for triangles `t, t+1, ..., T-1`, starting with running counter
`s`: while `t < T && s < numSamples`, triangle `t` gets
`min(numSamples - s, alloc t)` more samples. -/
def phase2ExtrasGo (numSamples : ℕ) (alloc : ℕ → ℕ) (T : ℕ) : ℕ → ℕ → List ℕ
  | t, s =>
    if _h : t < T then
      if s < numSamples then
        min (numSamples - s) (alloc t) ::
          phase2ExtrasGo numSamples alloc T (t + 1) (s + min (numSamples - s) (alloc t))
      else List.replicate (T - t) 0
    else []
termination_by t _ => T - t
decreasing_by omega

/-- Extra samples each triangle receives in phase 2. -/
noncomputable def phase2Extras (m : Mesh) (minSpt numSamples : ℕ) : List ℕ :=
  phase2ExtrasGo numSamples (phase2Alloc m minSpt numSamples) m.numTriangles 0
    (m.numTriangles * minSpt)

/-- Counter `sample_idx` when the phase-2 loop has finished. -/
noncomputable def idxAfterPhase2 (m : Mesh) (minSpt numSamples : ℕ) : ℕ :=
  m.numTriangles * minSpt + (phase2Extras m minSpt numSamples).sum

/-- The phase-3 loop (bake_sample.cpp:188-194): while
`t < T && s < numSamples`, triangle `t` gets exactly one more sample. -/
def phase3ExtrasGo (numSamples T : ℕ) : ℕ → ℕ → List ℕ
  | t, s =>
    if _h : t < T then
      if s < numSamples then 1 :: phase3ExtrasGo numSamples T (t + 1) (s + 1)
      else List.replicate (T - t) 0
    else []
termination_by t _ => T - t
decreasing_by omega

/-- Extra samples each triangle receives in phase 3. -/
noncomputable def phase3Extras (m : Mesh) (minSpt numSamples : ℕ) : List ℕ :=
  phase3ExtrasGo numSamples m.numTriangles 0 (idxAfterPhase2 m minSpt numSamples)

/-- Vector `tri_sample_counts` after all three placement phases:
`minSpt` from phase 1 plus the phase-2 and phase-3 extras. -/
noncomputable def triSampleCounts (m : Mesh) (minSpt numSamples : ℕ) : List ℕ :=
  (List.range m.numTriangles).map fun t =>
    minSpt + (phase2Extras m minSpt numSamples).getD t 0 +
      (phase3Extras m minSpt numSamples).getD t 0

/-- The sample buffer contents after the three placement phases, in the order
the shared running counter `sample_idx` writes the slots: all phase-1 blocks
(triangles in ascending order, sample indices `[0, minSpt)`), then the
phase-2 blocks, then the phase-3 blocks. -/
noncomputable def placedSamples (m : Mesh) (minSpt numSamples : ℕ) : List Sample :=
  ((List.range m.numTriangles).flatMap fun t =>
    sample_triangle m t 0 minSpt) ++
  ((List.range m.numTriangles).flatMap fun t =>
    sample_triangle m t minSpt (minSpt + (phase2Extras m minSpt numSamples).getD t 0)) ++
  ((List.range m.numTriangles).flatMap fun t =>
    sample_triangle m t (minSpt + (phase2Extras m minSpt numSamples).getD t 0)
      (minSpt + (phase2Extras m minSpt numSamples).getD t 0 +
        (phase3Extras m minSpt numSamples).getD t 0))

/-- The dA pass (bake_sample.cpp:196-206): walking triangles in ascending
order, it stamps `tri_sample_counts[t]` consecutive slots `k, k+1, ...` with
`tri_areas[t] / tri_sample_counts[t]` — the slot values it writes, in order. -/
noncomputable def dAValues (m : Mesh) (minSpt numSamples : ℕ) : List ℝ :=
  (List.range m.numTriangles).flatMap fun t =>
    List.replicate ((triSampleCounts m minSpt numSamples).getD t 0)
      (triAreas m t / ((triSampleCounts m minSpt numSamples).getD t 0 : ℕ))

/-- Function `bake::sample_surface_random`: the final sample buffer, the placed
samples with the dA pass applied slot by slot. -/
noncomputable def sample_surface_random (m : Mesh) (minSpt numSamples : ℕ) : List Sample :=
  List.zipWith (fun s a => { s with dA := a }) (placedSamples m minSpt numSamples)
    (dAValues m minSpt numSamples)

/-! ## Loader dispatch (`load_scene`, src/loaders/load_scene.cpp)

The filename is the C string (`none` models a null `const char*`), the format
loaders `load_obj_scene` / `load_bk3d_scene` are external collaborators, so
the outcome records which of them gets invoked (or that `load_scene` returns
`false` on its own), and the `std::cerr` diagnostics are recorded as a list.
The `NOGZLIB` preprocessor switch is the `noGzlib` flag. -/

inductive Outcome
  | fails
  | callsObj
  | callsBk3d
deriving DecidableEq, Repr

inductive Diagnostic
  | noExtension
  | unhandledGz
  | unknownExtensionFallback
deriving DecidableEq, Repr

/-- Call `s.rfind(".")`: index of the last occurrence of `c`, if any. -/
def rfindIdx (c : Char) : List Char → Option ℕ
  | [] => none
  | a :: as =>
    match rfindIdx c as with
    | some i => some (i + 1)
    | none => if a = c then some 0 else none

/-- Function `load_scene` (load_scene.cpp:6-39): null and too-short filenames fail
silently; a name with no `.` fails with a diagnostic; otherwise dispatch on
the extension `s.substr(s.rfind characters)`. -/
def load_scene (noGzlib : Bool) (filename : Option (List Char)) :
    Outcome × List Diagnostic :=
  match filename with
  | none => (Outcome.fails, [])
  | some s =>
    if s.length < 4 then (Outcome.fails, [])
    else
      match rfindIdx '.' s with
      | none => (Outcome.fails, [Diagnostic.noExtension])
      | some pos =>
        let extension := s.drop pos
        if extension = ['.', 'o', 'b', 'j'] then (Outcome.callsObj, [])
        else if noGzlib ∧ extension = ['.', 'g', 'z'] then
          (Outcome.fails, [Diagnostic.unhandledGz])
        else if extension = ['.', 'b', 'k', '3', 'd'] ∨ extension = ['.', 'g', 'z'] then
          (Outcome.callsBk3d, [])
        else (Outcome.callsBk3d, [Diagnostic.unknownExtensionFallback])

/-! ## Validity predicate and concrete meshes used in the theorems below -/

/-- Valid barycentric coordinates: the components sum to 1 and each is
nonnegative (spec §3 / §8, stated exactly; the embedding is exact so no
tolerance is needed). -/
def baryValid (b : ℝ × ℝ × ℝ) : Prop :=
  b.1 + b.2.1 + b.2.2 = 1 ∧ 0 ≤ b.1 ∧ 0 ≤ b.2.1 ∧ 0 ≤ b.2.2

/-- Vertices of the two-triangle test mesh `meshA`. -/
noncomputable def vertsA : ℕ → Vec3
  | 1 => ⟨1, 0, 0⟩
  | 2 => ⟨0, 2, 0⟩
  | 3 => ⟨2, 0, 0⟩
  | 4 => ⟨0, 3, 0⟩
  | _ => ⟨0, 0, 0⟩

/-- A mesh of two triangles with areas 1 (triangle 0) and 3 (triangle 1). -/
noncomputable def meshA : Mesh where
  numVertices := 5
  numTriangles := 2
  vertices := vertsA
  triVertexIndices := fun t => if t = 0 then (0, 1, 2) else (0, 3, 4)
  normals := none
  triNormalIndices := none

/-- Vertices of the test mesh `meshB`. -/
noncomputable def vertsB : ℕ → Vec3
  | 1 => ⟨1, 0, 0⟩
  | 2 => ⟨0, 2, 0⟩
  | _ => ⟨0, 0, 0⟩

/-- A mesh of two triangles: triangle 0 has area 1 and triangle 1 is
degenerate (all three vertices coincide, area 0). -/
noncomputable def meshB : Mesh where
  numVertices := 3
  numTriangles := 2
  vertices := vertsB
  triVertexIndices := fun t => if t = 0 then (0, 1, 2) else (0, 0, 0)
  normals := none
  triNormalIndices := none

/-! ## Theorems about the Halton generator -/

theorem fracVal_nonneg {base : ℕ} : ∀ l : List ℕ, 0 ≤ fracVal base l := by
  intro l
  induction l with
  | nil => simp [fracVal]
  | cons d ds ih =>
    exact div_nonneg (add_nonneg (by positivity) ih) (by positivity)

theorem fracVal_lt_one {base : ℕ} (hb : 2 ≤ base) :
    ∀ l : List ℕ, (∀ d ∈ l, d < base) → fracVal base l < 1 := by
  intro l
  induction l with
  | nil => simp [fracVal]
  | cons d ds ih =>
    intro hlt
    have hbpos : (0 : ℚ) < base := by positivity
    rw [fracVal, div_lt_one hbpos]
    have hd : (d : ℚ) + 1 ≤ base := by
      have := hlt d (List.mem_cons_self d ds)
      exact_mod_cast this
    have hds : fracVal base ds < 1 := ih fun e he => hlt e (List.mem_cons_of_mem d he)
    linarith

theorem haltonGo_eq {base : ℕ} (hb : 2 ≤ base) :
    ∀ (fuel i : ℕ) (f r : ℚ), i ≤ fuel →
      haltonGo base fuel i f r = r + f * base * fracVal base (Nat.digits base i) := by
  intro fuel
  induction fuel with
  | zero =>
    intro i f r hi
    have : i = 0 := Nat.le_zero.mp hi
    subst this
    simp [haltonGo, fracVal]
  | succ n ih =>
    intro i f r hi
    by_cases h0 : i = 0
    · subst h0
      simp [haltonGo, fracVal]
    · have h1 : 1 < base := by omega
      have hdiv : i / base ≤ n := by
        have := Nat.div_lt_self (Nat.pos_of_ne_zero h0) h1
        omega
      rw [haltonGo]
      simp only [h0, if_false]
      rw [ih _ _ _ hdiv, Nat.digits_def' h1 (Nat.pos_of_ne_zero h0)]
      have hbne : (base : ℚ) ≠ 0 := by positivity
      rw [fracVal]
      field_simp
      ring

/-- C6: for every integer base ≥ 2 and every index, `halton base index` is
exactly the radix-inverse (digit-reversed fractional reassembly) of `index`
in base `base`, and the (deterministic) result lies in `[0, 1)`. -/
theorem halton_is_radix_inverse_in_unit_interval {base : ℕ} (index : ℕ) (hb : 2 ≤ base) :
    halton base index = radixInverse base index ∧
      0 ≤ halton base index ∧ halton base index < 1 := by
  have h1 : 1 < base := by omega
  have hbne : (base : ℚ) ≠ 0 := by positivity
  have heq : halton base index = radixInverse base index := by
    unfold halton radixInverse
    rw [haltonGo_eq hb index index _ _ le_rfl]
    field_simp
  refine ⟨heq, ?_, ?_⟩
  · rw [heq]
    exact fracVal_nonneg _
  · rw [heq]
    exact fracVal_lt_one hb _ fun d hd => Nat.digits_lt_base h1 hd

/-- Witness for C6 at base 2, index 6: the digits of 6 in base 2 are
`[0, 1, 1]`, whose reversed fractional reassembly is `3/8`. -/
theorem halton_is_radix_inverse_in_unit_interval_w :
    2 ≤ 2 ∧
      (halton 2 6 = radixInverse 2 6 ∧ 0 ≤ halton 2 6 ∧ halton 2 6 < 1) ∧
      halton 2 6 = 3 / 8 :=
  ⟨by norm_num, halton_is_radix_inverse_in_unit_interval 6 (by norm_num),
    by norm_num [halton, haltonGo]⟩

/-! ## Barycentric coordinates (C5) -/

theorem frac_nonneg (q : ℚ) : 0 ≤ frac q := by
  rw [frac, sub_nonneg]
  exact Int.floor_le q

theorem frac_lt_one (q : ℚ) : frac q < 1 := by
  have := Int.lt_floor_add_one q
  rw [frac]
  linarith

theorem r1At_nonneg (t k : ℕ) : 0 ≤ r1At t k := frac_nonneg _

theorem r1At_lt_one (t k : ℕ) : r1At t k < 1 := frac_lt_one _

theorem r2At_nonneg (t k : ℕ) : 0 ≤ r2At t k := frac_nonneg _

theorem r2At_lt_one (t k : ℕ) : r2At t k < 1 := frac_lt_one _

theorem mapToBary_valid (r1 r2 : ℝ) (_h0 : 0 ≤ r1) (h1 : r1 ≤ 1) (h2 : 0 ≤ r2)
    (h3 : r2 ≤ 1) : baryValid (mapToBary r1 r2) := by
  have hs0 : 0 ≤ Real.sqrt r1 := Real.sqrt_nonneg r1
  have hs1 : Real.sqrt r1 ≤ 1 := Real.sqrt_le_one.mpr h1
  refine ⟨by rw [mapToBary]; ring, ?_, ?_, ?_⟩
  · rw [mapToBary]
    simpa using sub_nonneg.mpr hs1
  · exact mul_nonneg h2 hs0
  · show 0 ≤ 1 - (1 - Real.sqrt r1) - r2 * Real.sqrt r1
    have : 1 - (1 - Real.sqrt r1) - r2 * Real.sqrt r1 = Real.sqrt r1 * (1 - r2) := by
      ring
    rw [this]
    exact mul_nonneg hs0 (by linarith)

theorem sampleAt_bary (m : Mesh) (t k : ℕ) :
    (sampleAt m t k).bary = mapToBary ((r1At t k : ℚ) : ℝ) ((r2At t k : ℚ) : ℝ) := rfl

theorem sampleAt_baryValid (m : Mesh) (t k : ℕ) : baryValid (sampleAt m t k).bary := by
  rw [sampleAt_bary]
  apply mapToBary_valid
  · exact_mod_cast r1At_nonneg t k
  · exact_mod_cast (r1At_lt_one t k).le
  · exact_mod_cast r2At_nonneg t k
  · exact_mod_cast (r2At_lt_one t k).le

/-- C5: for `r1, r2 ∈ [0,1)` the square-root mapping
`(1 - √r1, r2·√r1, 1 - b0 - b1)` is a valid barycentric triple (components
sum to 1 and are each nonnegative), and consequently every sample written by
`sample_triangle` carries a valid barycentric triple. -/
theorem sqrt_bary_mapping_valid (r1 r2 : ℝ) (h0 : 0 ≤ r1) (h1 : r1 < 1)
    (h2 : 0 ≤ r2) (h3 : r2 < 1) :
    baryValid (mapToBary r1 r2) ∧
      ∀ (m : Mesh) (t k : ℕ), baryValid (sampleAt m t k).bary :=
  ⟨mapToBary_valid r1 r2 h0 h1.le h2 h3.le, sampleAt_baryValid⟩

/-- Witness for C5 at `r1 = 1/4`, `r2 = 1/2`. -/
theorem sqrt_bary_mapping_valid_w :
    (0 ≤ (1 / 4 : ℝ)) ∧ (1 / 4 : ℝ) < 1 ∧ (0 ≤ (1 / 2 : ℝ)) ∧ (1 / 2 : ℝ) < 1 ∧
      (baryValid (mapToBary (1 / 4) (1 / 2)) ∧
        ∀ (m : Mesh) (t k : ℕ), baryValid (sampleAt m t k).bary) :=
  ⟨by norm_num, by norm_num, by norm_num, by norm_num,
    sqrt_bary_mapping_valid (1 / 4) (1 / 2) (by norm_num) (by norm_num) (by norm_num)
      (by norm_num)⟩

/-! ## Normal reconciliation (C7) -/

theorem dot3_add_left (a b c : Vec3) : dot3 (a + b) c = dot3 a c + dot3 b c := by
  simp [dot3]
  ring

theorem dot3_smul_left (r : ℝ) (a b : Vec3) : dot3 (r • a) b = r * dot3 a b := by
  simp [dot3]
  ring

theorem dot3_neg_left (a b : Vec3) : dot3 (-a) b = -dot3 a b := by
  simp [dot3]
  ring

theorem dot3_self_nonneg (v : Vec3) : 0 ≤ dot3 v v := by
  rw [dot3]
  nlinarith [mul_self_nonneg v.x, mul_self_nonneg v.y, mul_self_nonneg v.z]

theorem dot3_normalize_left (v w : Vec3) :
    dot3 (normalize v) w = (Real.sqrt (dot3 v v))⁻¹ * dot3 v w := by
  rw [normalize, dot3_smul_left]

theorem faceforward_dot_nonneg (n g : Vec3) : 0 ≤ dot3 (faceforward n g) g := by
  rw [faceforward]
  split
  · linarith
  · rw [dot3_neg_left]
    linarith

theorem combo_dot_nonneg (f n0 n1 n2 : Vec3) (b0 b1 b2 : ℝ) (hb0 : 0 ≤ b0)
    (hb1 : 0 ≤ b1) (hb2 : 0 ≤ b2) (h0 : 0 ≤ dot3 n0 f) (h1 : 0 ≤ dot3 n1 f)
    (h2 : 0 ≤ dot3 n2 f) :
    0 ≤ dot3 (normalize (b0 • n0 + b1 • n1 + b2 • n2)) f := by
  have hw : 0 ≤ dot3 (b0 • n0 + b1 • n1 + b2 • n2) f := by
    rw [dot3_add_left, dot3_add_left, dot3_smul_left, dot3_smul_left, dot3_smul_left]
    positivity
  rw [dot3_normalize_left]
  exact mul_nonneg (inv_nonneg.mpr (Real.sqrt_nonneg _)) hw

theorem sampleAt_bary_nonneg (m : Mesh) (t k : ℕ) :
    0 ≤ (sampleAt m t k).bary.1 ∧ 0 ≤ (sampleAt m t k).bary.2.1 ∧
      0 ≤ (sampleAt m t k).bary.2.2 := by
  have h := sampleAt_baryValid m t k
  exact ⟨h.2.1, h.2.2.1, h.2.2.2⟩

/-- C7: `faceforward` keeps the shading normal when its dot product with the
face normal is strictly positive and negates it otherwise; consequently the
shading normal stored for every sample has nonnegative dot product with the
stored face normal. -/
theorem reconcile_and_sample_normal_agree :
    (∀ n g : Vec3, (0 < dot3 n g → faceforward n g = n) ∧
      (¬0 < dot3 n g → faceforward n g = -n)) ∧
    ∀ (m : Mesh) (t k : ℕ),
      0 ≤ dot3 (sampleAt m t k).normal (sampleAt m t k).faceNormal := by
  constructor
  · intro n g
    constructor <;> intro h <;> simp [faceforward, h]
  · intro m t k
    obtain ⟨hb0, hb1, hb2⟩ := sampleAt_bary_nonneg m t k
    rcases hno : m.normals with _ | ns <;> rcases hni : m.triNormalIndices with _ | nis <;>
      · simp only [sampleAt, hno, hni] at hb0 hb1 hb2 ⊢
        first
        | exact combo_dot_nonneg _ _ _ _ _ _ _ hb0 hb1 hb2 (dot3_self_nonneg _)
            (dot3_self_nonneg _) (dot3_self_nonneg _)
        | exact combo_dot_nonneg _ _ _ _ _ _ _ hb0 hb1 hb2 (faceforward_dot_nonneg _ _)
            (faceforward_dot_nonneg _ _) (faceforward_dot_nonneg _ _)

/-- Witness for C7: a normal already aligned with the face normal is kept,
and a concrete sample of `meshA` has consistent normals. -/
theorem reconcile_and_sample_normal_agree_w :
    0 < dot3 ⟨1, 0, 0⟩ ⟨1, 0, 0⟩ ∧ faceforward ⟨1, 0, 0⟩ ⟨1, 0, 0⟩ = ⟨1, 0, 0⟩ ∧
      0 ≤ dot3 (sampleAt meshA 0 0).normal (sampleAt meshA 0 0).faceNormal := by
  have h : 0 < dot3 ⟨1, 0, 0⟩ ⟨1, 0, 0⟩ := by
    rw [dot3]
    norm_num
  exact ⟨h, (reconcile_and_sample_normal_agree.1 _ _).1 h,
    reconcile_and_sample_normal_agree.2 meshA 0 0⟩

/-! ## Allocation bookkeeping: lengths and sums of the phase loops -/

theorem phase2ExtrasGo_length (nS : ℕ) (alloc : ℕ → ℕ) (T : ℕ) :
    ∀ t s, (phase2ExtrasGo nS alloc T t s).length = T - t := by
  intro t s
  induction t, s using phase2ExtrasGo.induct nS alloc T with
  | case1 t s h hs ih =>
    rw [phase2ExtrasGo]
    simp only [h, hs, dif_pos, if_pos, List.length_cons, ih]
    omega
  | case2 t s h hs =>
    rw [phase2ExtrasGo]
    simp [h, hs]
  | case3 t s h =>
    rw [phase2ExtrasGo]
    simp [h]
    omega

theorem phase2ExtrasGo_sum (nS : ℕ) (alloc : ℕ → ℕ) (T : ℕ) :
    ∀ t s, s ≤ nS →
      s + (phase2ExtrasGo nS alloc T t s).sum = nS ∨
        ((phase2ExtrasGo nS alloc T t s).sum = ((List.range' t (T - t)).map alloc).sum ∧
          s + (phase2ExtrasGo nS alloc T t s).sum ≤ nS) := by
  intro t s
  induction t, s using phase2ExtrasGo.induct nS alloc T with
  | case1 t s h hs ih =>
    intro _
    rw [phase2ExtrasGo]
    simp only [h, hs, dif_pos, if_pos, List.sum_cons]
    have hle : s + min (nS - s) (alloc t) ≤ nS := by omega
    rcases ih hle with h1 | ⟨h2, h3⟩
    · left
      omega
    · by_cases hmin : nS - s ≤ alloc t
      · left
        have he : min (nS - s) (alloc t) = nS - s := min_eq_left hmin
        omega
      · right
        have he : min (nS - s) (alloc t) = alloc t := min_eq_right (by omega)
        have hr : T - t = (T - (t + 1)) + 1 := by omega
        rw [hr, List.range'_succ, List.map_cons, List.sum_cons]
        constructor
        · omega
        · omega
  | case2 t s h hs =>
    intro hle
    rw [phase2ExtrasGo]
    simp only [h, hs, dif_pos, if_neg, not_false_iff]
    left
    simp only [List.sum_replicate, smul_zero]
    omega
  | case3 t s h =>
    intro hle
    rw [phase2ExtrasGo]
    simp only [h, dif_neg, not_false_iff]
    right
    have h0 : T - t = 0 := by omega
    constructor
    · simp [h0]
    · simpa using hle

theorem phase3ExtrasGo_length (nS T : ℕ) :
    ∀ t s, (phase3ExtrasGo nS T t s).length = T - t := by
  intro t s
  induction t, s using phase3ExtrasGo.induct nS T with
  | case1 t s h hs ih =>
    rw [phase3ExtrasGo]
    simp only [h, hs, dif_pos, if_pos, List.length_cons, ih]
    omega
  | case2 t s h hs =>
    rw [phase3ExtrasGo]
    simp [h, hs]
  | case3 t s h =>
    rw [phase3ExtrasGo]
    simp [h]
    omega

theorem phase3ExtrasGo_sum (nS T : ℕ) :
    ∀ t s, (phase3ExtrasGo nS T t s).sum = min (nS - s) (T - t) := by
  intro t s
  induction t, s using phase3ExtrasGo.induct nS T with
  | case1 t s h hs ih =>
    rw [phase3ExtrasGo]
    simp only [h, hs, dif_pos, if_pos, List.sum_cons, ih]
    omega
  | case2 t s h hs =>
    rw [phase3ExtrasGo]
    simp only [h, hs, dif_pos, if_neg, not_false_iff, List.sum_replicate, smul_zero]
    omega
  | case3 t s h =>
    rw [phase3ExtrasGo]
    simp only [h, dif_neg, not_false_iff, List.sum_nil]
    omega

theorem list_range_map_sum (f : ℕ → ℕ) (n : ℕ) :
    ((List.range n).map f).sum = ∑ t ∈ Finset.range n, f t := by
  induction n with
  | zero => simp
  | succ n ih =>
    rw [List.range_succ, List.map_append, List.sum_append, Finset.sum_range_succ, ih]
    simp

theorem sum_getD_eq_sum : ∀ (l : List ℕ) (n : ℕ), l.length = n →
    ∑ t ∈ Finset.range n, l.getD t 0 = l.sum := by
  intro l
  induction l with
  | nil =>
    intro n hn
    simp at hn
    simp [← hn]
  | cons a l ih =>
    intro n hn
    rw [List.length_cons] at hn
    subst hn
    rw [Finset.sum_range_succ']
    simp only [List.getD_cons_succ, List.getD_cons_zero, List.sum_cons]
    rw [ih l.length rfl]
    omega

theorem triAreas_nonneg (m : Mesh) (t : ℕ) : 0 ≤ triAreas m t := by
  rw [triAreas, triangle_area]
  positivity

/-- The floor-of-proportional-share allocation undershoots the exact share by
less than one sample per triangle (needs `mesh_area > 0`; at total area 0 the
C code divides 0 by 0, which is outside the model). -/
theorem phase2Alloc_bound (m : Mesh) (minSpt nS t : ℕ) :
    (numMeshSamples m minSpt nS : ℝ) * triAreas m t / meshArea m ≤
      (phase2Alloc m minSpt nS t : ℝ) + 1 := by
  set x : ℝ := (numMeshSamples m minSpt nS : ℝ) * triAreas m t / meshArea m with hx
  have h1 : x < (⌊x⌋ : ℝ) + 1 := Int.lt_floor_add_one x
  have h2 : ((⌊x⌋ : ℤ) : ℝ) ≤ ((⌊x⌋.toNat : ℤ) : ℝ) := by
    exact_mod_cast Int.self_le_toNat ⌊x⌋
  have h3 : (phase2Alloc m minSpt nS t : ℝ) = ((⌊x⌋.toNat : ℤ) : ℝ) := by
    rw [phase2Alloc]
    push_cast
    rfl
  rw [h3]
  linarith

theorem sum_ideal_shares (m : Mesh) (M : ℕ) (hA : 0 < meshArea m) :
    ∑ t ∈ Finset.range m.numTriangles, (M : ℝ) * triAreas m t / meshArea m = M := by
  rw [← Finset.sum_div, ← Finset.mul_sum, ← meshArea, mul_div_assoc,
    div_self (ne_of_gt hA), mul_one]

/-- After phase 2 of `sample_surface_random`, the running sample index has
not passed `numSamples`, and at most `numTriangles` samples remain unplaced
(given the asserted precondition and positive total area). -/
theorem idxAfterPhase2_le_and_remainder (m : Mesh) (minSpt nS : ℕ)
    (hpre : m.numTriangles * minSpt ≤ nS) (hA : 0 < meshArea m) :
    idxAfterPhase2 m minSpt nS ≤ nS ∧
      nS - idxAfterPhase2 m minSpt nS ≤ m.numTriangles := by
  rw [idxAfterPhase2, phase2Extras]
  rcases phase2ExtrasGo_sum nS (phase2Alloc m minSpt nS) m.numTriangles 0
      (m.numTriangles * minSpt) hpre with h | ⟨hsum, hle⟩
  · constructor <;> omega
  · refine ⟨by omega, ?_⟩
    have hsum' : (phase2ExtrasGo nS (phase2Alloc m minSpt nS) m.numTriangles 0
        (m.numTriangles * minSpt)).sum =
        ∑ t ∈ Finset.range m.numTriangles, phase2Alloc m minSpt nS t := by
      rw [hsum, Nat.sub_zero, ← List.range_eq_range', list_range_map_sum]
    have hM : (numMeshSamples m minSpt nS : ℝ) ≤
        ∑ t ∈ Finset.range m.numTriangles, ((phase2Alloc m minSpt nS t : ℝ) + 1) := by
      rw [← sum_ideal_shares m (numMeshSamples m minSpt nS) hA]
      exact Finset.sum_le_sum fun t _ => phase2Alloc_bound m minSpt nS t
    have hM' : (numMeshSamples m minSpt nS : ℝ) ≤
        ((∑ t ∈ Finset.range m.numTriangles, phase2Alloc m minSpt nS t : ℕ) : ℝ) +
          m.numTriangles := by
      rw [Finset.sum_add_distrib, Finset.sum_const, Finset.card_range,
        nsmul_eq_mul, mul_one] at hM
      push_cast
      linarith
    have hMn : numMeshSamples m minSpt nS ≤
        (∑ t ∈ Finset.range m.numTriangles, phase2Alloc m minSpt nS t) +
          m.numTriangles := by
      exact_mod_cast hM'
    rw [numMeshSamples] at hMn
    omega

/-- C3: after the truncated area-proportional fill (phase 2), at most
`num_triangles` samples remain unplaced, so the assertion
`num_samples - sample_idx <= num_triangles` guarding the remainder fill
holds.  (`0 < meshArea` excludes the all-degenerate mesh, on which the C
code's `tri_areas[t] / mesh_area` is NaN and the cast is undefined.) -/
theorem phase2_remainder_invariant (m : Mesh) (minSpt nS : ℕ)
    (hpre : m.numTriangles * minSpt ≤ nS) (hA : 0 < meshArea m) :
    nS - idxAfterPhase2 m minSpt nS ≤ m.numTriangles :=
  (idxAfterPhase2_le_and_remainder m minSpt nS hpre hA).2

theorem phase2Extras_length (m : Mesh) (minSpt nS : ℕ) :
    (phase2Extras m minSpt nS).length = m.numTriangles := by
  rw [phase2Extras, phase2ExtrasGo_length]
  omega

theorem phase3Extras_length (m : Mesh) (minSpt nS : ℕ) :
    (phase3Extras m minSpt nS).length = m.numTriangles := by
  rw [phase3Extras, phase3ExtrasGo_length]
  omega

theorem triSampleCounts_length (m : Mesh) (minSpt nS : ℕ) :
    (triSampleCounts m minSpt nS).length = m.numTriangles := by
  rw [triSampleCounts, List.length_map, List.length_range]

theorem phase3Extras_sum (m : Mesh) (minSpt nS : ℕ)
    (hpre : m.numTriangles * minSpt ≤ nS) (hA : 0 < meshArea m) :
    (phase3Extras m minSpt nS).sum = nS - idxAfterPhase2 m minSpt nS := by
  rw [phase3Extras, phase3ExtrasGo_sum]
  have := idxAfterPhase2_le_and_remainder m minSpt nS hpre hA
  omega

theorem triSampleCounts_sum (m : Mesh) (minSpt nS : ℕ)
    (hpre : m.numTriangles * minSpt ≤ nS) (hA : 0 < meshArea m) :
    (triSampleCounts m minSpt nS).sum = nS := by
  rw [triSampleCounts, list_range_map_sum]
  rw [Finset.sum_add_distrib, Finset.sum_add_distrib, Finset.sum_const,
    Finset.card_range, smul_eq_mul]
  rw [sum_getD_eq_sum _ _ (phase2Extras_length m minSpt nS),
    sum_getD_eq_sum _ _ (phase3Extras_length m minSpt nS)]
  rw [phase3Extras_sum m minSpt nS hpre hA]
  have h1 := (idxAfterPhase2_le_and_remainder m minSpt nS hpre hA).1
  rw [idxAfterPhase2] at h1 ⊢
  omega

theorem placedSamples_length (m : Mesh) (minSpt nS : ℕ)
    (hpre : m.numTriangles * minSpt ≤ nS) (hA : 0 < meshArea m) :
    (placedSamples m minSpt nS).length = nS := by
  rw [placedSamples]
  rw [List.length_append, List.length_append, List.length_flatMap,
    List.length_flatMap, List.length_flatMap]
  have h1 : (List.map (List.length ∘ fun t => sample_triangle m t 0 minSpt)
      (List.range m.numTriangles)).sum = m.numTriangles * minSpt := by
    have : (List.length ∘ fun t => sample_triangle m t 0 minSpt) = fun _ => minSpt := by
      funext t
      simp [sample_triangle]
    rw [this, list_range_map_sum, Finset.sum_const, Finset.card_range, smul_eq_mul]
  have h2 : (List.map (List.length ∘ fun t =>
      sample_triangle m t minSpt (minSpt + (phase2Extras m minSpt nS).getD t 0))
      (List.range m.numTriangles)).sum = (phase2Extras m minSpt nS).sum := by
    have : (List.length ∘ fun t =>
        sample_triangle m t minSpt (minSpt + (phase2Extras m minSpt nS).getD t 0)) =
        fun t => (phase2Extras m minSpt nS).getD t 0 := by
      funext t
      simp [sample_triangle]
    rw [this, list_range_map_sum, sum_getD_eq_sum _ _ (phase2Extras_length m minSpt nS)]
  have h3 : (List.map (List.length ∘ fun t =>
      sample_triangle m t (minSpt + (phase2Extras m minSpt nS).getD t 0)
        (minSpt + (phase2Extras m minSpt nS).getD t 0 +
          (phase3Extras m minSpt nS).getD t 0))
      (List.range m.numTriangles)).sum = (phase3Extras m minSpt nS).sum := by
    have : (List.length ∘ fun t =>
        sample_triangle m t (minSpt + (phase2Extras m minSpt nS).getD t 0)
          (minSpt + (phase2Extras m minSpt nS).getD t 0 +
            (phase3Extras m minSpt nS).getD t 0)) =
        fun t => (phase3Extras m minSpt nS).getD t 0 := by
      funext t
      simp [sample_triangle]
    rw [this, list_range_map_sum, sum_getD_eq_sum _ _ (phase3Extras_length m minSpt nS)]
  rw [h1, h2, h3, phase3Extras_sum m minSpt nS hpre hA]
  have h4 := (idxAfterPhase2_le_and_remainder m minSpt nS hpre hA).1
  rw [idxAfterPhase2] at h4 ⊢
  omega

theorem dAValues_length (m : Mesh) (minSpt nS : ℕ)
    (hpre : m.numTriangles * minSpt ≤ nS) (hA : 0 < meshArea m) :
    (dAValues m minSpt nS).length = nS := by
  rw [dAValues, List.length_flatMap]
  have : (List.map (List.length ∘ fun t =>
      List.replicate ((triSampleCounts m minSpt nS).getD t 0)
        (triAreas m t / ((triSampleCounts m minSpt nS).getD t 0 : ℕ)))
      (List.range m.numTriangles)).sum = (triSampleCounts m minSpt nS).sum := by
    have hfun : (List.length ∘ fun t =>
        List.replicate ((triSampleCounts m minSpt nS).getD t 0)
          (triAreas m t / ((triSampleCounts m minSpt nS).getD t 0 : ℕ))) =
        fun t => (triSampleCounts m minSpt nS).getD t 0 := by
      funext t
      simp
    rw [hfun, list_range_map_sum,
      sum_getD_eq_sum _ _ (triSampleCounts_length m minSpt nS)]
  rw [this, triSampleCounts_sum m minSpt nS hpre hA]

/-- C2: under the asserted precondition
`num_samples ≥ num_triangles * min_samples_per_triangle` (and positive total
mesh area — the all-degenerate mesh makes the phase-2 division NaN in C),
`sample_surface_random` places exactly `num_samples` samples: the final
per-triangle counts sum to `num_samples` and exactly `num_samples` buffer
slots are written, each exactly once (the buffer is built slot by slot in
write order). -/
theorem total_sample_count_exact (m : Mesh) (minSpt nS : ℕ)
    (hpre : m.numTriangles * minSpt ≤ nS) (_hmin : 1 ≤ minSpt)
    (hA : 0 < meshArea m) :
    (triSampleCounts m minSpt nS).sum = nS ∧
      (sample_surface_random m minSpt nS).length = nS := by
  refine ⟨triSampleCounts_sum m minSpt nS hpre hA, ?_⟩
  rw [sample_surface_random, List.length_zipWith,
    placedSamples_length m minSpt nS hpre hA, dAValues_length m minSpt nS hpre hA]
  simp

/-- C4: every triangle's final sample count is at least
`min_samples_per_triangle`: phase 1 contributes exactly that floor and the
later phases only add. -/
theorem per_triangle_count_at_least_floor (m : Mesh) (minSpt nS t : ℕ)
    (ht : t < m.numTriangles) :
    minSpt ≤ (triSampleCounts m minSpt nS).getD t 0 := by
  rw [triSampleCounts]
  rw [List.getD_eq_getElem _ _ (by simpa using ht)]
  simp only [List.getElem_map, List.getElem_range]
  omega

/-! ## Per-triangle sample ranges (C9) -/

theorem sampleAt_triIdx (m : Mesh) (t k : ℕ) : (sampleAt m t k).triIdx = t := rfl

theorem filter_sample_triangle (m : Mesh) (t t' b e : ℕ) :
    (sample_triangle m t' b e).filter (fun s => s.triIdx == t) =
      if t' = t then sample_triangle m t' b e else [] := by
  rw [sample_triangle, List.filter_map]
  have hcomp : ((fun s => s.triIdx == t) ∘ sampleAt m t') = fun _ => (t' == t) := by
    funext k
    simp [Function.comp, sampleAt_triIdx]
  rw [hcomp]
  by_cases h : t' = t
  · simp [h, sample_triangle]
  · simp [h]

theorem filter_flatMap_blocks (m : Mesh) (t : ℕ) (bfun efun : ℕ → ℕ) :
    ∀ ts : List ℕ,
      ((ts.flatMap fun t' => sample_triangle m t' (bfun t') (efun t')).filter
          (fun s => s.triIdx == t)) =
        (ts.filter (fun t' => t' == t)).flatMap fun t' =>
          sample_triangle m t' (bfun t') (efun t') := by
  intro ts
  induction ts with
  | nil => simp
  | cons a as ih =>
    rw [List.flatMap_cons, List.filter_append, filter_sample_triangle, ih,
      List.filter_cons]
    by_cases h : a = t
    · simp [h, List.flatMap_cons]
    · simp [h]

theorem range_filter_eq (T t : ℕ) (ht : t < T) :
    (List.range T).filter (fun t' => t' == t) = [t] := by
  induction T with
  | zero => omega
  | succ n ih =>
    rw [List.range_succ, List.filter_append]
    by_cases h : t < n
    · rw [ih h]
      have hn : List.filter (fun t' => t' == t) [n] = [] := by
        simp
        omega
      rw [hn]
      simp
    · have ht' : t = n := by omega
      subst ht'
      have h1 : (List.range t).filter (fun t' => t' == t) = [] := by
        rw [List.filter_eq_nil_iff]
        intro a ha
        simp only [List.mem_range] at ha
        simp
        omega
      rw [h1]
      simp

theorem range_append_chunks (a b c : ℕ) :
    List.range a ++ List.range' a b ++ List.range' (a + b) c =
      List.range (a + b + c) := by
  rw [List.append_assoc, List.range'_append_1]
  rw [List.range_eq_range']
  have h0 : List.range' a (c + b) = List.range' (0 + a) (c + b) := by
    rw [Nat.zero_add]
  rw [h0, List.range'_append_1]
  have h1 : c + b + a = a + b + c := by omega
  rw [h1, List.range_eq_range']

/-- C9: for every triangle `t` of the mesh, the samples carrying triangle
index `t` in the placed buffer are exactly `sampleAt m t k` for
`k = 0, 1, ..., count_t - 1` in order: the three phases pass `sample_triangle`
contiguous, non-overlapping index ranges whose union is `[0, count_t)`, so
each of the triangle's samples draws a distinct Halton index `k+1` (combined
with the triangle's fixed offset). -/
theorem per_triangle_sample_ranges_partition (m : Mesh) (minSpt nS t : ℕ)
    (ht : t < m.numTriangles) :
    (placedSamples m minSpt nS).filter (fun s => s.triIdx == t) =
      (List.range ((triSampleCounts m minSpt nS).getD t 0)).map (sampleAt m t) ∧
    ((List.range ((triSampleCounts m minSpt nS).getD t 0)).map fun k => k + 1).Nodup := by
  constructor
  · have hcount : (triSampleCounts m minSpt nS).getD t 0 =
        minSpt + (phase2Extras m minSpt nS).getD t 0 +
          (phase3Extras m minSpt nS).getD t 0 := by
      rw [triSampleCounts, List.getD_eq_getElem _ _ (by simpa using ht)]
      simp
    rw [placedSamples, List.filter_append, List.filter_append,
      filter_flatMap_blocks m t (fun _ => 0) (fun _ => minSpt),
      filter_flatMap_blocks m t (fun t' => minSpt)
        (fun t' => minSpt + (phase2Extras m minSpt nS).getD t' 0),
      filter_flatMap_blocks m t
        (fun t' => minSpt + (phase2Extras m minSpt nS).getD t' 0)
        (fun t' => minSpt + (phase2Extras m minSpt nS).getD t' 0 +
          (phase3Extras m minSpt nS).getD t' 0),
      range_filter_eq _ _ ht]
    simp only [List.flatMap_cons, List.flatMap_nil, List.append_nil]
    rw [sample_triangle, sample_triangle, sample_triangle, hcount]
    rw [← List.map_append, ← List.map_append]
    congr 1
    simp only [Nat.sub_zero, Nat.add_sub_cancel_left]
    rw [← List.range_eq_range']
    exact range_append_chunks minSpt _ _
  · exact ((List.nodup_range _).map fun a b h => by omega)

/-- Witness for C9 on `meshA`, triangle 0. -/
theorem per_triangle_sample_ranges_partition_w :
    0 < meshA.numTriangles ∧
      ((placedSamples meshA 1 4).filter (fun s => s.triIdx == 0) =
        (List.range ((triSampleCounts meshA 1 4).getD 0 0)).map (sampleAt meshA 0) ∧
      ((List.range ((triSampleCounts meshA 1 4).getD 0 0)).map fun k => k + 1).Nodup) :=
  ⟨by norm_num [meshA], per_triangle_sample_ranges_partition meshA 1 4 0
    (by norm_num [meshA])⟩

/-! ## Unfolding lemmas for the phase loops, and concrete evaluations -/

theorem phase2ExtrasGo_step (nS : ℕ) (alloc : ℕ → ℕ) (T t s : ℕ) (h1 : t < T)
    (h2 : s < nS) :
    phase2ExtrasGo nS alloc T t s =
      min (nS - s) (alloc t) ::
        phase2ExtrasGo nS alloc T (t + 1) (s + min (nS - s) (alloc t)) := by
  rw [phase2ExtrasGo]
  simp [h1, h2]

theorem phase2ExtrasGo_fill (nS : ℕ) (alloc : ℕ → ℕ) (T t s : ℕ) (h1 : t < T)
    (h2 : ¬s < nS) :
    phase2ExtrasGo nS alloc T t s = List.replicate (T - t) 0 := by
  rw [phase2ExtrasGo]
  simp [h1, h2]

theorem phase2ExtrasGo_stop (nS : ℕ) (alloc : ℕ → ℕ) (T t s : ℕ) (h1 : ¬t < T) :
    phase2ExtrasGo nS alloc T t s = [] := by
  rw [phase2ExtrasGo]
  simp [h1]

theorem phase3ExtrasGo_step (nS T t s : ℕ) (h1 : t < T) (h2 : s < nS) :
    phase3ExtrasGo nS T t s = 1 :: phase3ExtrasGo nS T (t + 1) (s + 1) := by
  rw [phase3ExtrasGo]
  simp [h1, h2]

theorem phase3ExtrasGo_fill (nS T t s : ℕ) (h1 : t < T) (h2 : ¬s < nS) :
    phase3ExtrasGo nS T t s = List.replicate (T - t) 0 := by
  rw [phase3ExtrasGo]
  simp [h1, h2]

theorem sqrt_four : Real.sqrt 4 = 2 := by
  rw [show (4 : ℝ) = 2 ^ 2 by norm_num, Real.sqrt_sq (by norm_num : (0:ℝ) ≤ 2)]

theorem sqrt_36 : Real.sqrt 36 = 6 := by
  rw [show (36 : ℝ) = 6 ^ 2 by norm_num, Real.sqrt_sq (by norm_num : (0:ℝ) ≤ 6)]

theorem areaA0 : triAreas meshA 0 = 1 := by
  simp only [triAreas, meshA, vertsA, triangle_area, cross]
  norm_num [sqrt_four]

theorem areaA1 : triAreas meshA 1 = 3 := by
  simp only [triAreas, meshA, vertsA, triangle_area, cross]
  norm_num [sqrt_36]

theorem meshAreaA : meshArea meshA = 4 := by
  rw [meshArea, show meshA.numTriangles = 2 from rfl, Finset.sum_range_succ,
    Finset.sum_range_succ, Finset.sum_range_zero, areaA0, areaA1]
  norm_num

theorem numMeshSamplesA : numMeshSamples meshA 1 4 = 2 := rfl

theorem allocA0 : phase2Alloc meshA 1 4 0 = 0 := by
  rw [phase2Alloc, numMeshSamplesA, areaA0, meshAreaA]
  norm_num

theorem allocA1 : phase2Alloc meshA 1 4 1 = 1 := by
  rw [phase2Alloc, numMeshSamplesA, areaA1, meshAreaA]
  norm_num

theorem phase2ExtrasA : phase2Extras meshA 1 4 = [0, 1] := by
  rw [phase2Extras, show meshA.numTriangles = 2 from rfl]
  norm_num
  rw [phase2ExtrasGo_step _ _ _ _ _ (by norm_num) (by norm_num), allocA0]
  norm_num
  rw [phase2ExtrasGo_step _ _ _ _ _ (by norm_num) (by norm_num), allocA1]
  norm_num
  rw [phase2ExtrasGo_stop _ _ _ _ _ (by norm_num)]

theorem idxAfterPhase2A : idxAfterPhase2 meshA 1 4 = 3 := by
  rw [idxAfterPhase2, phase2ExtrasA, show meshA.numTriangles = 2 from rfl]
  decide

theorem phase3ExtrasA : phase3Extras meshA 1 4 = [1, 0] := by
  rw [phase3Extras, idxAfterPhase2A, show meshA.numTriangles = 2 from rfl]
  rw [phase3ExtrasGo_step _ _ _ _ (by norm_num) (by norm_num)]
  rw [phase3ExtrasGo_fill _ _ _ _ (by norm_num) (by norm_num)]
  decide

theorem triSampleCountsA : triSampleCounts meshA 1 4 = [2, 2] := by
  rw [triSampleCounts, show meshA.numTriangles = 2 from rfl, phase2ExtrasA,
    phase3ExtrasA]
  rfl

theorem placedSamplesA :
    placedSamples meshA 1 4 =
      [sampleAt meshA 0 0, sampleAt meshA 1 0, sampleAt meshA 1 1,
        sampleAt meshA 0 1] := by
  rw [placedSamples, show meshA.numTriangles = 2 from rfl, phase2ExtrasA,
    phase3ExtrasA]
  simp only [sample_triangle, show List.range 2 = [0, 1] from rfl,
    List.flatMap_cons, List.flatMap_nil]
  norm_num

theorem dAValuesA : dAValues meshA 1 4 = [1 / 2, 1 / 2, 3 / 2, 3 / 2] := by
  rw [dAValues, show meshA.numTriangles = 2 from rfl, triSampleCountsA]
  simp only [show List.range 2 = [0, 1] from rfl, List.flatMap_cons,
    List.flatMap_nil, areaA0, areaA1]
  norm_num
  rfl

/-- C1 (refuting evaluation): on `meshA` (areas 1 and 3) with
`min_samples_per_triangle = 1` and `num_samples = 4`, the slots of the final
buffer hold triangle indices `[0, 1, 1, 0]` (phase order) while the dA pass
stamps `[1/2, 1/2, 3/2, 3/2]` assuming triangle-contiguous slots; so slot 1
belongs to triangle 1 (whose `area/count` is `3/2`) yet carries `dA = 1/2`,
and the two samples of triangle 1 (slots 1 and 2) carry different dA. -/
theorem dA_stamped_by_slot_not_triangle :
    ((sample_surface_random meshA 1 4).map fun s => (s.triIdx, s.dA)) =
      [(0, 1 / 2), (1, 1 / 2), (1, 3 / 2), (0, 3 / 2)] ∧
    triAreas meshA 1 / (((triSampleCounts meshA 1 4).getD 1 0 : ℕ) : ℝ) = 3 / 2 := by
  constructor
  · rw [sample_surface_random, placedSamplesA, dAValuesA]
    simp [sampleAt_triIdx]
  · rw [areaA1, triSampleCountsA]
    norm_num

/-- Witness for C2 on `meshA` with `minSpt = 1`, `numSamples = 4`. -/
theorem total_sample_count_exact_w :
    meshA.numTriangles * 1 ≤ 4 ∧ 1 ≤ 1 ∧ 0 < meshArea meshA ∧
      ((triSampleCounts meshA 1 4).sum = 4 ∧
        (sample_surface_random meshA 1 4).length = 4) :=
  ⟨by norm_num [meshA], le_rfl, by rw [meshAreaA]; norm_num,
    total_sample_count_exact meshA 1 4 (by norm_num [meshA]) le_rfl
      (by rw [meshAreaA]; norm_num)⟩

/-- Witness for C3 on `meshA` with `minSpt = 1`, `numSamples = 4`. -/
theorem phase2_remainder_invariant_w :
    meshA.numTriangles * 1 ≤ 4 ∧ 0 < meshArea meshA ∧
      4 - idxAfterPhase2 meshA 1 4 ≤ meshA.numTriangles :=
  ⟨by norm_num [meshA], by rw [meshAreaA]; norm_num,
    phase2_remainder_invariant meshA 1 4 (by norm_num [meshA])
      (by rw [meshAreaA]; norm_num)⟩

/-- Witness for C4 on `meshA`, triangle 0. -/
theorem per_triangle_count_at_least_floor_w :
    0 < meshA.numTriangles ∧ 1 ≤ (triSampleCounts meshA 1 4).getD 0 0 :=
  ⟨by norm_num [meshA],
    per_triangle_count_at_least_floor meshA 1 4 0 (by norm_num [meshA])⟩

/-! ## Evaluation on `meshB` (a degenerate triangle), for C8 -/

theorem areaB0 : triAreas meshB 0 = 1 := by
  simp only [triAreas, meshB, vertsB, triangle_area, cross]
  norm_num [sqrt_four]

theorem areaB1 : triAreas meshB 1 = 0 := by
  simp only [triAreas, meshB, vertsB, triangle_area, cross]
  norm_num

theorem meshAreaB : meshArea meshB = 1 := by
  rw [meshArea, show meshB.numTriangles = 2 from rfl, Finset.sum_range_succ,
    Finset.sum_range_succ, Finset.sum_range_zero, areaB0, areaB1]
  norm_num

theorem allocB0 : phase2Alloc meshB 1 4 0 = 2 := by
  rw [phase2Alloc, show numMeshSamples meshB 1 4 = 2 from rfl, areaB0, meshAreaB]
  norm_num
  decide

theorem phase2ExtrasB : phase2Extras meshB 1 4 = [2, 0] := by
  rw [phase2Extras, show meshB.numTriangles = 2 from rfl]
  norm_num
  rw [phase2ExtrasGo_step _ _ _ _ _ (by norm_num) (by norm_num), allocB0]
  norm_num
  rw [phase2ExtrasGo_fill _ _ _ _ _ (by norm_num) (by norm_num)]
  decide

theorem idxAfterPhase2B : idxAfterPhase2 meshB 1 4 = 4 := by
  rw [idxAfterPhase2, phase2ExtrasB, show meshB.numTriangles = 2 from rfl]
  decide

theorem phase3ExtrasB : phase3Extras meshB 1 4 = [0, 0] := by
  rw [phase3Extras, idxAfterPhase2B, show meshB.numTriangles = 2 from rfl]
  rw [phase3ExtrasGo_fill _ _ _ _ (by norm_num) (by norm_num)]
  decide

theorem triSampleCountsB : triSampleCounts meshB 1 4 = [3, 1] := by
  rw [triSampleCounts, show meshB.numTriangles = 2 from rfl, phase2ExtrasB,
    phase3ExtrasB]
  rfl

theorem placedSamplesB :
    placedSamples meshB 1 4 =
      [sampleAt meshB 0 0, sampleAt meshB 1 0, sampleAt meshB 0 1,
        sampleAt meshB 0 2] := by
  rw [placedSamples, show meshB.numTriangles = 2 from rfl, phase2ExtrasB,
    phase3ExtrasB]
  simp only [sample_triangle, show List.range 2 = [0, 1] from rfl,
    List.flatMap_cons, List.flatMap_nil]
  norm_num
  simp [show List.range' 1 2 = [1, 2] from rfl]

theorem dAValuesB : dAValues meshB 1 4 = [1 / 3, 1 / 3, 1 / 3, 0] := by
  rw [dAValues, show meshB.numTriangles = 2 from rfl, triSampleCountsB]
  simp only [show List.range 2 = [0, 1] from rfl, List.flatMap_cons,
    List.flatMap_nil, areaB0, areaB1]
  norm_num
  rfl

/-- C8 (evaluation): on `meshB` the degenerate triangle 1 has area 0 and its
final count is 1 (so the dA division never divides by zero), but the dA pass
stamps its only sample (slot 1) with triangle 0's value `1/3`, not with
`0/1 = 0`; the `dA = 0` lands on slot 3, a sample of triangle 0. -/
theorem degenerate_triangle_dA_misassigned :
    triAreas meshB 1 = 0 ∧ 1 ≤ (triSampleCounts meshB 1 4).getD 1 0 ∧
      ((sample_surface_random meshB 1 4).map fun s => (s.triIdx, s.dA)) =
        [(0, 1 / 3), (1, 1 / 3), (0, 1 / 3), (0, 0)] := by
  refine ⟨areaB1, ?_, ?_⟩
  · rw [triSampleCountsB]
    decide
  · rw [sample_surface_random, placedSamplesB, dAValuesB]
    simp [sampleAt_triIdx]

/-! ## Loader dispatch failures (C10) -/

theorem rfindIdx_eq_none_iff (c : Char) : ∀ s : List Char, rfindIdx c s = none ↔ c ∉ s := by
  intro s
  induction s with
  | nil => simp [rfindIdx]
  | cons a as ih =>
    rw [rfindIdx]
    cases h : rfindIdx c as with
    | some i =>
      have hmem : c ∈ as := by
        by_contra hn
        rw [ih.mpr hn] at h
        exact Option.noConfusion h
      simp [List.mem_cons, hmem]
    | none =>
      have hnc : c ∉ as := ih.mp h
      by_cases hac : a = c
      · simp [hac]
      · simp only [hac, if_false, List.mem_cons]
        constructor
        · intro _ hor
          rcases hor with h1 | h2
          · exact hac h1.symm
          · exact hnc h2
        · intro _
          trivial

/-- C10 (refuting evaluation): a null filename and the 3-character filename
"abc" both make `load_scene` return `false` with NO diagnostic emitted,
contradicting the claim that every pre-loader failure comes with a
diagnostic message. -/
theorem load_scene_silent_failures :
    load_scene false none = (Outcome.fails, []) ∧
      load_scene false (some ['a', 'b', 'c']) = (Outcome.fails, []) :=
  ⟨rfl, rfl⟩

/-- C10 (amended): every input on which `load_scene` fails without invoking a
format loader — null filename, name shorter than 4 characters, name with no
`'.'` — yields boolean failure without crashing; a diagnostic is emitted only
in the no-dot case, while null and short names fail silently. -/
theorem load_scene_failures_before_loader (g : Bool) :
    load_scene g none = (Outcome.fails, []) ∧
      (∀ s : List Char, s.length < 4 → load_scene g (some s) = (Outcome.fails, [])) ∧
      (∀ s : List Char, 4 ≤ s.length → '.' ∉ s →
        load_scene g (some s) = (Outcome.fails, [Diagnostic.noExtension])) := by
  refine ⟨rfl, ?_, ?_⟩
  · intro s hs
    simp [load_scene, hs]
  · intro s hlen hdot
    have hfind : rfindIdx '.' s = none := (rfindIdx_eq_none_iff '.' s).mpr hdot
    simp [load_scene, Nat.not_lt.mpr hlen, hfind]

/-- Witness for the amended C10 at the concrete names "abc" and "abcd". -/
theorem load_scene_failures_before_loader_w :
    (['a', 'b', 'c'] : List Char).length < 4 ∧
      load_scene false (some ['a', 'b', 'c']) = (Outcome.fails, []) ∧
      4 ≤ (['a', 'b', 'c', 'd'] : List Char).length ∧
      '.' ∉ (['a', 'b', 'c', 'd'] : List Char) ∧
      load_scene false (some ['a', 'b', 'c', 'd']) =
        (Outcome.fails, [Diagnostic.noExtension]) :=
  ⟨by decide, (load_scene_failures_before_loader false).2.1 _ (by decide),
    by decide, by decide,
    (load_scene_failures_before_loader false).2.2 _ (by decide) (by decide)⟩

end OptixBake
